import Mathlib

/-!
Verification of the classical/quantum circuit-construction logic of the
Quantum-Computing-Course notebooks.

Circuits are embedded shallowly: a circuit is a list of gates acting on the
state space `(Fin m → Bool) → Cyc`, where `Cyc` models the cyclotomic ring
ℚ(ζ) for ζ = e^(iπ/128) (a primitive 256-th root of unity), represented by
coefficient vectors over the power basis ζ^0, …, ζ^127 with ζ^128 = -1.
This ring contains every scalar the notebooks use for at most 8 qubits:
all controlled-phase factors e^(±iπ/2^d) with d ≤ 7 are powers of ζ, and
1/√2 = (ζ^32 - ζ^96)/2.  All definitions are computable and all state
equalities on concrete inputs are decidable.
-/

/-- Coefficient vector over the basis ζ^0, …, ζ^127, with ζ = e^(iπ/128)
and the relation ζ^128 = -1. -/
abbrev Cyc : Type := Fin 128 → ℚ

/-- Multiplication by ζ: shift the coefficients one step up, wrapping the
top coefficient around with a sign flip (ζ^128 = -1). -/
def mulZ (f : Cyc) : Cyc := fun k =>
  if h : k.val = 0 then -(f ⟨127, by omega⟩) else f ⟨k.val - 1, by omega⟩

/-- The multiplicative unit of `Cyc` (the constant ζ^0 = 1). -/
def cycOne : Cyc := fun k => if k.val = 0 then 1 else 0

/-- Negate a `Cyc` value when the boolean flag is set: realizes (-1)^b. -/
def negIf (b : Bool) (v : Cyc) : Cyc := if b then -v else v

lemma mulZ_add (f g : Cyc) : mulZ (f + g) = mulZ f + mulZ g := by
  funext k; simp only [mulZ, Pi.add_apply]; split <;> ring

lemma mulZ_neg (f : Cyc) : mulZ (-f) = -(mulZ f) := by
  funext k; simp only [mulZ, Pi.neg_apply]; split <;> ring

lemma mulZ_smul (c : ℚ) (f : Cyc) : mulZ (c • f) = c • mulZ f := by
  funext k; simp only [mulZ, Pi.smul_apply, smul_eq_mul]; split <;> ring

lemma mulZ_zero : mulZ (0 : Cyc) = 0 := by
  funext k; simp only [mulZ, Pi.zero_apply]; split <;> ring

lemma mulZ_iter_add (f : Cyc) (a b : ℕ) : mulZ^[a] (mulZ^[b] f) = mulZ^[a + b] f :=
  (Function.iterate_add_apply mulZ a b f).symm

lemma mulZ_apply (f : Cyc) (k : Fin 128) :
    mulZ f k =
      if h : k.val = 0 then -(f ⟨127, by omega⟩) else f ⟨k.val - 1, by omega⟩ := rfl

lemma cycCongr (f : Cyc) {A B : ℕ} (hA : A < 128) (hB : B < 128) (h : A = B) :
    f ⟨A, hA⟩ = f ⟨B, hB⟩ := by subst h; rfl

lemma mulZ_iter_add' (f g : Cyc) (m : ℕ) :
    mulZ^[m] (f + g) = mulZ^[m] f + mulZ^[m] g := by
  induction m generalizing f g with
  | zero => simp
  | succ n ih =>
      rw [Function.iterate_succ_apply, Function.iterate_succ_apply,
        Function.iterate_succ_apply, mulZ_add, ih]

lemma mulZ_iter_neg (f : Cyc) (m : ℕ) : mulZ^[m] (-f) = -(mulZ^[m] f) := by
  induction m generalizing f with
  | zero => simp
  | succ n ih =>
      rw [Function.iterate_succ_apply, Function.iterate_succ_apply, mulZ_neg, ih]

lemma mulZ_iter_smul (c : ℚ) (f : Cyc) (m : ℕ) :
    mulZ^[m] (c • f) = c • mulZ^[m] f := by
  induction m generalizing f with
  | zero => simp
  | succ n ih =>
      rw [Function.iterate_succ_apply, Function.iterate_succ_apply, mulZ_smul, ih]

lemma mulZ_iter_zero (m : ℕ) : mulZ^[m] (0 : Cyc) = 0 := by
  induction m with
  | zero => simp
  | succ n ih => rw [Function.iterate_succ_apply, mulZ_zero, ih]

/-- Closed form for iterated multiplication by ζ, for at most 128 steps. -/
lemma mulZ_iter_formula : ∀ (m : ℕ), m ≤ 128 → ∀ (f : Cyc) (k : Fin 128),
    mulZ^[m] f k =
      if h : m ≤ k.val then f ⟨k.val - m, by have := k.isLt; omega⟩
      else -f ⟨k.val + 128 - m, by have := k.isLt; omega⟩ := by
  intro m
  induction m with
  | zero =>
      intro _ f k
      rw [dif_pos (Nat.zero_le _)]
      simp
  | succ n ih =>
      intro hm f k
      rw [Function.iterate_succ_apply, ih (by omega) (mulZ f) k]
      by_cases hn : n ≤ k.val
      · rw [dif_pos hn, mulZ_apply]
        simp only [Fin.val_mk]
        by_cases hz : k.val - n = 0
        · rw [dif_pos hz, dif_neg (show ¬ (n + 1 ≤ k.val) by omega)]
          exact congrArg Neg.neg
            (cycCongr f _ _ (by have := k.isLt; omega))
        · rw [dif_neg hz, dif_pos (show n + 1 ≤ k.val by omega)]
          exact cycCongr f _ _ (by omega)
      · rw [dif_neg hn]
        have hmk :
            (mulZ f) ⟨k.val + 128 - n, by have := k.isLt; omega⟩ =
              f ⟨k.val + 128 - (n + 1), by have := k.isLt; omega⟩ := by
          rw [mulZ_apply]
          simp only [Fin.val_mk]
          rw [dif_neg (show ¬ (k.val + 128 - n = 0) by omega)]
          exact cycCongr f _ _ (by omega)
        rw [hmk, dif_neg (show ¬ (n + 1 ≤ k.val) by omega)]

lemma mulZ_iter128 (f : Cyc) : mulZ^[128] f = -f := by
  funext k
  rw [mulZ_iter_formula 128 le_rfl f k,
    dif_neg (show ¬ (128 ≤ k.val) by have := k.isLt; omega)]
  simp only [Pi.neg_apply]
  exact congrArg Neg.neg (cycCongr f _ _ (by have := k.isLt; omega))

lemma mulZ_iter256 (f : Cyc) : mulZ^[256] f = f := by
  show mulZ^[128 + 128] f = f
  rw [Function.iterate_add_apply, mulZ_iter128, mulZ_iter128, neg_neg]

/-- The scalar 1/√2 = (ζ^32 - ζ^96)/2, acting on a coefficient vector by
multiplication.  (ζ^32 = e^(iπ/4) and ζ^96 = e^(3iπ/4), whose difference
is √2; dividing by 2 yields 1/√2.) -/
def invSqrt2 (f : Cyc) : Cyc := (2 : ℚ)⁻¹ • (mulZ^[32] f - mulZ^[96] f)

lemma invSqrt2_add (f g : Cyc) : invSqrt2 (f + g) = invSqrt2 f + invSqrt2 g := by
  simp only [invSqrt2, mulZ_iter_add']
  rw [← smul_add]
  congr 1
  abel

lemma invSqrt2_neg (f : Cyc) : invSqrt2 (-f) = -(invSqrt2 f) := by
  simp only [invSqrt2, mulZ_iter_neg]
  rw [← smul_neg]
  congr 1
  abel

lemma invSqrt2_zero : invSqrt2 (0 : Cyc) = 0 := by
  simp only [invSqrt2, mulZ_iter_zero, sub_zero, smul_zero]

lemma invSqrt2_smul (c : ℚ) (f : Cyc) : invSqrt2 (c • f) = c • invSqrt2 f := by
  simp only [invSqrt2, mulZ_iter_smul, ← smul_sub, smul_comm c]

lemma invSqrt2_negIf (b : Bool) (f : Cyc) :
    invSqrt2 (negIf b f) = negIf b (invSqrt2 f) := by
  cases b <;> simp [negIf, invSqrt2_neg]

lemma negIf_negIf (a b : Bool) (f : Cyc) :
    negIf a (negIf b f) = negIf (Bool.xor a b) f := by
  cases a <;> cases b <;> simp [negIf]

lemma negIf_zero (b : Bool) : negIf b (0 : Cyc) = 0 := by
  cases b <;> simp [negIf]

lemma mulZ_iter_sub (f g : Cyc) (m : ℕ) :
    mulZ^[m] (f - g) = mulZ^[m] f - mulZ^[m] g := by
  rw [sub_eq_add_neg, mulZ_iter_add', mulZ_iter_neg, sub_eq_add_neg]

lemma mulZ_comm_iter (m : ℕ) (f : Cyc) : mulZ (mulZ^[m] f) = mulZ^[m] (mulZ f) := by
  rw [← Function.iterate_succ_apply' mulZ m f, Function.iterate_succ_apply]

lemma mulZ_invSqrt2 (f : Cyc) : mulZ (invSqrt2 f) = invSqrt2 (mulZ f) := by
  simp only [invSqrt2, mulZ_smul, sub_eq_add_neg, mulZ_add, mulZ_neg,
    mulZ_comm_iter]

lemma mulZ_iter_invSqrt2 (f : Cyc) (m : ℕ) :
    mulZ^[m] (invSqrt2 f) = invSqrt2 (mulZ^[m] f) := by
  induction m generalizing f with
  | zero => simp
  | succ n ih =>
      rw [Function.iterate_succ_apply, Function.iterate_succ_apply, mulZ_invSqrt2, ih]

/-- 1/√2 applied twice is exactly division by 2. -/
lemma invSqrt2_invSqrt2 (f : Cyc) : invSqrt2 (invSqrt2 f) = (2 : ℚ)⁻¹ • f := by
  have h3264 : ∀ g : Cyc, mulZ^[32] (mulZ^[32] g) = mulZ^[64] g := fun g => by
    rw [mulZ_iter_add]
  have h3296 : ∀ g : Cyc, mulZ^[32] (mulZ^[96] g) = -g := fun g => by
    rw [mulZ_iter_add]; exact mulZ_iter128 g
  have h9632 : ∀ g : Cyc, mulZ^[96] (mulZ^[32] g) = -g := fun g => by
    rw [mulZ_iter_add]; exact mulZ_iter128 g
  have h9696 : ∀ g : Cyc, mulZ^[96] (mulZ^[96] g) = -(mulZ^[64] g) := fun g => by
    rw [mulZ_iter_add]
    show mulZ^[64 + 128] g = -(mulZ^[64] g)
    rw [Function.iterate_add_apply, mulZ_iter128, mulZ_iter_neg]
  simp only [invSqrt2, mulZ_iter_smul, mulZ_iter_sub, h3264, h3296, h9632, h9696]
  funext k
  simp only [Pi.smul_apply, Pi.sub_apply, Pi.add_apply, Pi.neg_apply, smul_eq_mul]
  ring

/-! ### Qubit registers, gates, and circuit application

A circuit on `m` qubits is a `List Gate`; gates carry plain natural-number
qubit indices, exactly as in the Qiskit calls of the notebooks.  States are
amplitude vectors over the computational basis `Fin m → Bool` (basis vector
`z` assigns the bit `z i` to qubit `i`, Qiskit's little-endian qubit
numbering). -/

/-- Amplitude vector of an `m`-qubit register over the `Cyc` scalars. -/
abbrev QState (m : ℕ) : Type := (Fin m → Bool) → Cyc

/-- Read qubit `q` of a basis assignment (out-of-range reads give `false`). -/
def getQ {m : ℕ} (z : Fin m → Bool) (q : ℕ) : Bool :=
  if h : q < m then z ⟨q, h⟩ else false

/-- Write qubit `q` of a basis assignment (out-of-range writes are no-ops). -/
def setQ {m : ℕ} (z : Fin m → Bool) (q : ℕ) (b : Bool) : Fin m → Bool :=
  fun i => if i.val = q then b else z i

lemma getQ_setQ_self {m : ℕ} (z : Fin m → Bool) (q : ℕ) (b : Bool) (hq : q < m) :
    getQ (setQ z q b) q = b := by
  simp [getQ, setQ, hq]

lemma getQ_setQ_ne {m : ℕ} (z : Fin m → Bool) (q r : ℕ) (b : Bool) (h : q ≠ r) :
    getQ (setQ z q b) r = getQ z r := by
  unfold getQ
  by_cases hr : r < m
  · rw [dif_pos hr, dif_pos hr]
    show (if (⟨r, hr⟩ : Fin m).val = q then b else z ⟨r, hr⟩) = z ⟨r, hr⟩
    rw [if_neg (by simp only [Fin.val_mk]; omega)]
  · rw [dif_neg hr, dif_neg hr]

lemma setQ_setQ_self {m : ℕ} (z : Fin m → Bool) (q : ℕ) (a b : Bool) :
    setQ (setQ z q a) q b = setQ z q b := by
  funext i; unfold setQ; split <;> rfl

lemma setQ_setQ_comm {m : ℕ} (z : Fin m → Bool) (q r : ℕ) (a b : Bool) (h : q ≠ r) :
    setQ (setQ z q a) r b = setQ (setQ z r b) q a := by
  funext i; unfold setQ
  by_cases h1 : i.val = r <;> by_cases h2 : i.val = q
  · exact absurd (h1 ▸ h2) (by omega)
  · simp only [if_pos h1, if_neg h2]
  · simp only [if_neg h1, if_pos h2]
  · simp only [if_neg h1, if_neg h2]

lemma setQ_getQ_self {m : ℕ} (z : Fin m → Bool) (q : ℕ) :
    setQ z q (getQ z q) = z := by
  funext i; unfold setQ getQ
  by_cases h : i.val = q
  · rw [if_pos h, dif_pos (h ▸ i.isLt)]
    congr 1
    exact Fin.ext h.symm
  · rw [if_neg h]

lemma setQ_oor {m : ℕ} (z : Fin m → Bool) (q : ℕ) (b : Bool) (h : m ≤ q) :
    setQ z q b = z := by
  funext i; unfold setQ
  rw [if_neg (by have := i.isLt; omega)]

lemma getQ_oor {m : ℕ} (z : Fin m → Bool) (q : ℕ) (h : m ≤ q) :
    getQ z q = false := by
  unfold getQ
  rw [dif_neg (by omega)]

/-- The gate vocabulary used by the notebooks: Hadamard, Pauli-X, CNOT,
controlled phase, and SWAP.  The controlled-phase parameter `p` encodes the
phase angle `p·π/128`, i.e. the scalar ζ^p with ζ = e^(iπ/128). -/
inductive Gate : Type
  | h (q : ℕ)
  | x (q : ℕ)
  | cx (c t : ℕ)
  | cp (p : ℕ) (c t : ℕ)
  | swap (a b : ℕ)
deriving DecidableEq

/-- Exchange the bits of qubits `a` and `b` in a basis assignment. -/
def swapQ {m : ℕ} (a b : ℕ) (z : Fin m → Bool) : Fin m → Bool :=
  setQ (setQ z a (getQ z b)) b (getQ z a)

/-- Apply one gate to a state: the standard unitary action written on
amplitudes.  `h q` maps amplitudes by the 2×2 Hadamard on qubit `q`, `x`,
`cx` and `swap` permute basis vectors, and `cp p c t` multiplies the
amplitude by ζ^p whenever both control and target bits are set. -/
def applyG {m : ℕ} : Gate → QState m → QState m
  | .h q, ψ => fun z =>
      invSqrt2 (ψ (setQ z q false) + negIf (getQ z q) (ψ (setQ z q true)))
  | .x q, ψ => fun z => ψ (setQ z q (!(getQ z q)))
  | .cx c t, ψ => fun z => ψ (setQ z t (Bool.xor (getQ z t) (getQ z c)))
  | .cp p c t, ψ => fun z =>
      if getQ z c && getQ z t then mulZ^[p] (ψ z) else ψ z
  | .swap a b, ψ => fun z => ψ (swapQ a b z)

/-- Apply a circuit (list of gates, first gate first) to a state. -/
def applyList {m : ℕ} (L : List Gate) (ψ : QState m) : QState m :=
  L.foldl (fun φ g => applyG g φ) ψ

/-- Basis state: all amplitude on the assignment `b`. -/
def basisState {m : ℕ} (b : Fin m → Bool) : QState m :=
  fun z => if z = b then cycOne else 0

lemma applyList_nil {m : ℕ} (ψ : QState m) : applyList [] ψ = ψ := rfl

lemma applyList_cons {m : ℕ} (g : Gate) (L : List Gate) (ψ : QState m) :
    applyList (g :: L) ψ = applyList L (applyG g ψ) := rfl

lemma applyList_append {m : ℕ} (L1 L2 : List Gate) (ψ : QState m) :
    applyList (L1 ++ L2) ψ = applyList L2 (applyList L1 ψ) :=
  List.foldl_append _ _ _ _

lemma applyList_concat {m : ℕ} (L : List Gate) (g : Gate) (ψ : QState m) :
    applyList (L ++ [g]) ψ = applyG g (applyList L ψ) := by
  rw [applyList_append, applyList_cons, applyList_nil]

/-! ### Algebraic properties of gate application -/

lemma negIf_add (b : Bool) (f g : Cyc) :
    negIf b (f + g) = negIf b f + negIf b g := by
  cases b
  · rfl
  · exact neg_add f g

lemma half_add (v : Cyc) : (2 : ℚ)⁻¹ • (v + v) = v := by
  funext k
  simp only [Pi.smul_apply, Pi.add_apply, smul_eq_mul]
  ring

lemma getQ_val_eq {m : ℕ} (z : Fin m → Bool) (i : Fin m) (q : ℕ) (h : i.val = q) :
    getQ z q = z i := by
  subst h
  unfold getQ
  rw [dif_pos i.isLt]

lemma swapQ_apply {m : ℕ} (a b : ℕ) (z : Fin m → Bool) (i : Fin m) :
    swapQ a b z i =
      if i.val = b then getQ z a else if i.val = a then getQ z b else z i := rfl

lemma getQ_swapQ_ne {m : ℕ} (a b c : ℕ) (z : Fin m → Bool)
    (hca : c ≠ a) (hcb : c ≠ b) : getQ (swapQ a b z) c = getQ z c := by
  unfold getQ
  by_cases hc : c < m
  · rw [dif_pos hc, dif_pos hc, swapQ_apply]
    simp only [Fin.val_mk]
    rw [if_neg hcb, if_neg hca]
  · rw [dif_neg hc, dif_neg hc]

lemma getQ_swapQ_left {m : ℕ} (a b : ℕ) (z : Fin m → Bool) (ha : a < m) :
    getQ (swapQ a b z) a = getQ z b := by
  rw [getQ_val_eq (swapQ a b z) ⟨a, ha⟩ a rfl, swapQ_apply]
  simp only [Fin.val_mk]
  by_cases hab : a = b
  · rw [if_pos hab, hab]
  · rw [if_neg hab]
    simp

lemma getQ_swapQ_right {m : ℕ} (a b : ℕ) (z : Fin m → Bool) (hb : b < m) :
    getQ (swapQ a b z) b = getQ z a := by
  rw [getQ_val_eq (swapQ a b z) ⟨b, hb⟩ b rfl, swapQ_apply]
  simp

lemma swapQ_invol {m : ℕ} (a b : ℕ) (z : Fin m → Bool) (ha : a < m) (hb : b < m) :
    swapQ a b (swapQ a b z) = z := by
  have g1 : getQ (swapQ a b z) a = getQ z b := getQ_swapQ_left a b z ha
  have g2 : getQ (swapQ a b z) b = getQ z a := getQ_swapQ_right a b z hb
  funext i
  rw [swapQ_apply, g1, g2]
  by_cases h1 : i.val = b
  · rw [if_pos h1]
    exact getQ_val_eq z i b h1
  · rw [if_neg h1]
    by_cases h2 : i.val = a
    · rw [if_pos h2]
      exact getQ_val_eq z i a h2
    · rw [if_neg h2, swapQ_apply, if_neg h1, if_neg h2]

lemma swapQ_comm {m : ℕ} (a b c d : ℕ) (z : Fin m → Bool)
    (hac : a ≠ c) (had : a ≠ d) (hbc : b ≠ c) (hbd : b ≠ d) :
    swapQ c d (swapQ a b z) = swapQ a b (swapQ c d z) := by
  have gac : getQ (swapQ a b z) c = getQ z c := getQ_swapQ_ne a b c z hac.symm hbc.symm
  have gad : getQ (swapQ a b z) d = getQ z d := getQ_swapQ_ne a b d z had.symm hbd.symm
  have gca : getQ (swapQ c d z) a = getQ z a := getQ_swapQ_ne c d a z hac had
  have gcb : getQ (swapQ c d z) b = getQ z b := getQ_swapQ_ne c d b z hbc hbd
  funext i
  simp only [swapQ_apply, gac, gad, gca, gcb]
  split_ifs <;> first | rfl | omega

/-- Gate application is additive in the state. -/
lemma applyG_add {m : ℕ} (g : Gate) (ψ φ : QState m) :
    applyG g (ψ + φ) = applyG g ψ + applyG g φ := by
  cases g with
  | h q =>
      funext z
      simp only [applyG, Pi.add_apply, negIf_add]
      rw [add_add_add_comm, invSqrt2_add]
  | x q => funext z; simp only [applyG, Pi.add_apply]
  | cx c t => funext z; simp only [applyG, Pi.add_apply]
  | cp p c t =>
      funext z
      simp only [applyG, Pi.add_apply]
      split
      · rw [mulZ_iter_add']
      · rfl
  | swap a b => funext z; simp only [applyG, Pi.add_apply]

/-- Gate application commutes with negation of the state. -/
lemma applyG_neg {m : ℕ} (g : Gate) (ψ : QState m) :
    applyG g (-ψ) = -(applyG g ψ) := by
  cases g with
  | h q =>
      funext z
      simp only [applyG, Pi.neg_apply]
      have hn : ∀ (s : Bool) (v : Cyc), negIf s (-v) = -(negIf s v) := by
        intro s v; cases s <;> simp [negIf]
      rw [hn, ← neg_add, invSqrt2_neg]
  | x q => funext z; simp only [applyG, Pi.neg_apply]
  | cx c t => funext z; simp only [applyG, Pi.neg_apply]
  | cp p c t =>
      funext z
      simp only [applyG, Pi.neg_apply]
      split
      · rw [mulZ_iter_neg]
      · rfl
  | swap a b => funext z; simp only [applyG, Pi.neg_apply]

/-- Gate application commutes with the global scalar 1/√2. -/
lemma applyG_invHalf {m : ℕ} (g : Gate) (ψ : QState m) :
    applyG g (fun z => invSqrt2 (ψ z)) = fun z => invSqrt2 (applyG g ψ z) := by
  cases g with
  | h q =>
      funext z
      simp only [applyG]
      rw [← invSqrt2_negIf, ← invSqrt2_add]
  | x q => funext z; simp only [applyG]
  | cx c t => funext z; simp only [applyG]
  | cp p c t =>
      funext z
      simp only [applyG]
      split
      · rw [mulZ_iter_invSqrt2]
      · rfl
  | swap a b => funext z; simp only [applyG]

/-- Gate application commutes with a sign flip of the state. -/
lemma applyG_negIf {m : ℕ} (g : Gate) (s : Bool) (ψ : QState m) :
    applyG g (fun z => negIf s (ψ z)) = fun z => negIf s (applyG g ψ z) := by
  cases s
  · rfl
  · show applyG g (-ψ) = fun z => -(applyG g ψ z)
    rw [applyG_neg]
    rfl

lemma applyList_add {m : ℕ} (L : List Gate) (ψ φ : QState m) :
    applyList L (ψ + φ) = applyList L ψ + applyList L φ := by
  induction L generalizing ψ φ with
  | nil => rfl
  | cons g T ih => rw [applyList_cons, applyList_cons, applyList_cons, applyG_add, ih]

lemma applyList_invHalf {m : ℕ} (L : List Gate) (ψ : QState m) :
    applyList L (fun z => invSqrt2 (ψ z)) = fun z => invSqrt2 (applyList L ψ z) := by
  induction L generalizing ψ with
  | nil => rfl
  | cons g T ih => rw [applyList_cons, applyG_invHalf, ih, applyList_cons]

lemma applyList_negIf {m : ℕ} (L : List Gate) (s : Bool) (ψ : QState m) :
    applyList L (fun z => negIf s (ψ z)) = fun z => negIf s (applyList L ψ z) := by
  induction L generalizing ψ with
  | nil => rfl
  | cons g T ih => rw [applyList_cons, applyG_negIf, ih, applyList_cons]

/-! ### Inverse gates and the reverse-inverse circuit lemma -/

/-- The inverse of each gate: `h`, `x`, `cx`, `swap` are self-inverse, and
the inverse phase of ζ^p is ζ^(256-p) (since ζ^256 = 1). -/
def invG : Gate → Gate
  | .h q => .h q
  | .x q => .x q
  | .cx c t => .cx c t
  | .cp p c t => .cp (256 - p) c t
  | .swap a b => .swap a b

/-- Well-formedness of a gate on an `m`-qubit register, sufficient for the
gate to be undone by its inverse: indices of `h` and `swap` in range,
distinct control/target for `cx`, and phase parameter at most 256. -/
def GOk (m : ℕ) : Gate → Prop
  | .h q => q < m
  | .x _ => True
  | .cx c t => c ≠ t
  | .cp p _ _ => p ≤ 256
  | .swap a b => a < m ∧ b < m

lemma applyG_h_h {m : ℕ} (q : ℕ) (hq : q < m) (ψ : QState m) :
    applyG (Gate.h q) (applyG (Gate.h q) ψ) = ψ := by
  funext z
  simp only [applyG, getQ_setQ_self _ _ _ hq, setQ_setQ_self]
  cases hzq : getQ z q
  · show invSqrt2
        (invSqrt2 (ψ (setQ z q false) + ψ (setQ z q true)) +
          invSqrt2 (ψ (setQ z q false) + -(ψ (setQ z q true)))) = ψ z
    rw [← invSqrt2_add, invSqrt2_invSqrt2]
    have harr : ψ (setQ z q false) + ψ (setQ z q true) +
        (ψ (setQ z q false) + -(ψ (setQ z q true))) =
          ψ (setQ z q false) + ψ (setQ z q false) := by abel
    rw [harr, half_add, ← hzq, setQ_getQ_self]
  · show invSqrt2
        (invSqrt2 (ψ (setQ z q false) + ψ (setQ z q true)) +
          -(invSqrt2 (ψ (setQ z q false) + -(ψ (setQ z q true))))) = ψ z
    rw [← invSqrt2_neg, ← invSqrt2_add, invSqrt2_invSqrt2]
    have harr : ψ (setQ z q false) + ψ (setQ z q true) +
        -(ψ (setQ z q false) + -(ψ (setQ z q true))) =
          ψ (setQ z q true) + ψ (setQ z q true) := by abel
    rw [harr, half_add, ← hzq, setQ_getQ_self]

lemma applyG_x_x {m : ℕ} (q : ℕ) (ψ : QState m) :
    applyG (Gate.x q) (applyG (Gate.x q) ψ) = ψ := by
  funext z
  simp only [applyG]
  by_cases hq : q < m
  · rw [getQ_setQ_self _ _ _ hq, Bool.not_not, setQ_setQ_self, setQ_getQ_self]
  · rw [setQ_oor _ _ _ (by omega), setQ_oor _ _ _ (by omega)]

lemma applyG_cx_cx {m : ℕ} (c t : ℕ) (hct : c ≠ t) (ψ : QState m) :
    applyG (Gate.cx c t) (applyG (Gate.cx c t) ψ) = ψ := by
  funext z
  simp only [applyG]
  rw [getQ_setQ_ne _ _ _ _ (fun h => hct h.symm)]
  by_cases ht : t < m
  · rw [getQ_setQ_self _ _ _ ht, setQ_setQ_self]
    have hx : Bool.xor (Bool.xor (getQ z t) (getQ z c)) (getQ z c) = getQ z t := by
      cases getQ z t <;> cases getQ z c <;> rfl
    rw [hx, setQ_getQ_self]
  · rw [setQ_oor _ _ _ (by omega), setQ_oor _ _ _ (by omega)]

lemma applyG_swap_swap {m : ℕ} (a b : ℕ) (ha : a < m) (hb : b < m) (ψ : QState m) :
    applyG (Gate.swap a b) (applyG (Gate.swap a b) ψ) = ψ := by
  funext z
  simp only [applyG]
  rw [swapQ_invol a b z ha hb]

lemma applyG_cp_cp {m : ℕ} (p p' c t : ℕ) (hp : p + p' = 256) (ψ : QState m) :
    applyG (Gate.cp p' c t) (applyG (Gate.cp p c t) ψ) = ψ := by
  funext z
  simp only [applyG]
  by_cases hc : getQ z c && getQ z t
  · rw [if_pos hc, if_pos hc, mulZ_iter_add]
    have : p' + p = 256 := by omega
    rw [this, mulZ_iter256]
  · rw [if_neg hc, if_neg hc]

/-- Applying a well-formed gate and then its inverse is the identity. -/
lemma applyG_invG {m : ℕ} (g : Gate) (hg : GOk m g) (ψ : QState m) :
    applyG (invG g) (applyG g ψ) = ψ := by
  cases g with
  | h q => exact applyG_h_h q hg ψ
  | x q => exact applyG_x_x q ψ
  | cx c t => exact applyG_cx_cx c t hg ψ
  | cp p c t => exact applyG_cp_cp p (256 - p) c t (by exact Nat.add_sub_cancel' hg) ψ
  | swap a b => exact applyG_swap_swap a b hg.1 hg.2 ψ

/-- Master lemma: a circuit followed by its reversed, gate-wise inverted
circuit acts as the identity on every state. -/
lemma applyList_revInv {m : ℕ} :
    ∀ (L : List Gate), (∀ g ∈ L, GOk m g) → ∀ ψ : QState m,
      applyList ((L.map invG).reverse) (applyList L ψ) = ψ := by
  intro L
  induction L with
  | nil => intro _ ψ; rfl
  | cons g T ih =>
      intro hL ψ
      rw [List.map_cons, List.reverse_cons, applyList_cons, applyList_concat,
        ih (fun g' hg' => hL g' (List.mem_cons_of_mem g hg')) (applyG g ψ),
        applyG_invG g (hL g (List.mem_cons_self g T)) ψ]

/-- Two gates commute (as state transformers). -/
def GComm (m : ℕ) (g1 g2 : Gate) : Prop :=
  ∀ ψ : QState m, applyG g1 (applyG g2 ψ) = applyG g2 (applyG g1 ψ)

lemma GComm_symm {m : ℕ} {g1 g2 : Gate} (h : GComm m g1 g2) : GComm m g2 g1 :=
  fun ψ => (h ψ).symm

lemma applyG_applyList_comm {m : ℕ} (g : Gate) :
    ∀ (L : List Gate), (∀ g' ∈ L, GComm m g g') → ∀ ψ : QState m,
      applyG g (applyList L ψ) = applyList L (applyG g ψ) := by
  intro L
  induction L with
  | nil => intro _ ψ; rfl
  | cons g' T ih =>
      intro hL ψ
      rw [applyList_cons, applyList_cons,
        ih (fun g'' hg'' => hL g'' (List.mem_cons_of_mem g' hg'')),
        hL g' (List.mem_cons_self g' T)]

/-- A block of pairwise-commuting, self-inverse gates squares to the
identity (in the same order both times). -/
lemma applyList_selfinv {m : ℕ} :
    ∀ (L : List Gate), L.Pairwise (GComm m) →
      (∀ g ∈ L, ∀ ψ : QState m, applyG g (applyG g ψ) = ψ) →
      ∀ ψ : QState m, applyList L (applyList L ψ) = ψ := by
  intro L
  induction L with
  | nil => intro _ _ ψ; rfl
  | cons g T ih =>
      intro hpw hinv ψ
      rw [applyList_cons, applyList_cons,
        applyG_applyList_comm g T (List.pairwise_cons.mp hpw).1 (applyG g ψ),
        hinv g (List.mem_cons_self g T) ψ]
      exact ih (List.pairwise_cons.mp hpw).2
        (fun g' hg' ψ' => hinv g' (List.mem_cons_of_mem g hg') ψ') ψ

lemma GComm_h_h {m : ℕ} (a b : ℕ) (hab : a ≠ b) : GComm m (Gate.h a) (Gate.h b) := by
  intro ψ
  funext z
  have g1 : ∀ β, getQ (setQ z a β) b = getQ z b := fun β => getQ_setQ_ne z a b β hab
  have g2 : ∀ β, getQ (setQ z b β) a = getQ z a := fun β =>
    getQ_setQ_ne z b a β (Ne.symm hab)
  have s1 : ∀ β γ, setQ (setQ z a β) b γ = setQ (setQ z b γ) a β := fun β γ =>
    setQ_setQ_comm z a b β γ hab
  simp only [applyG, g1, g2, s1]
  simp only [← invSqrt2_negIf, ← invSqrt2_add]
  refine congrArg invSqrt2 (congrArg invSqrt2 ?_)
  simp only [negIf_add, negIf_negIf]
  rw [Bool.xor_comm (getQ z a) (getQ z b)]
  abel

lemma GComm_swap_swap {m : ℕ} (a b c d : ℕ)
    (hac : a ≠ c) (had : a ≠ d) (hbc : b ≠ c) (hbd : b ≠ d) :
    GComm m (Gate.swap a b) (Gate.swap c d) := by
  intro ψ
  funext z
  simp only [applyG]
  exact congrArg ψ (swapQ_comm c d a b z hac.symm hbc.symm had.symm hbd.symm).symm

/-! ### The QFT and inverse-QFT circuits (notebook `QFT.ipynb`)

`apply_qft`: for each qubit `i` in increasing order, a Hadamard followed by
controlled phases `cp(π/2^(j-i), j, i)` for every later qubit `j`, and then
a full qubit-order reversal by swaps.  `apply_inverse_qft`: the swaps first,
then for `i` in decreasing order the negated phases in decreasing `j`
followed by the Hadamard.  The phase angle π/2^d is the scalar ζ^(128/2^d)
(exact for d ≤ 7, i.e. for every register of at most 8 qubits), and the
negated angle -π/2^d is ζ^(256 - 128/2^d). -/

/-- Gates of the two nested loops of `apply_qft` (Hadamard, then the
controlled-phase ladder, for each `i` in increasing order). -/
def qftPhase (n : ℕ) : List Gate :=
  ((List.range n).map fun i =>
    Gate.h i :: ((List.range' (i + 1) (n - (i + 1))).map fun j =>
      Gate.cp (128 / 2 ^ (j - i)) j i)).flatten

/-- Gates of the final swap loop of `apply_qft`: `swap(i, n-i-1)` for
`i < n/2`. -/
def qftSwaps (n : ℕ) : List Gate :=
  (List.range (n / 2)).map fun i => Gate.swap i (n - i - 1)

/-- The forward QFT ladder of `apply_qft(qc, n)`. -/
def apply_qft (n : ℕ) : List Gate := qftPhase n ++ qftSwaps n

/-- Gates of the two nested loops of `apply_inverse_qft` (for `i` from
`n-1` down to `0`: the negated controlled phases for `j` from `n-1` down to
`i+1`, then the Hadamard on `i`). -/
def iqftPhase (n : ℕ) : List Gate :=
  ((List.range n).reverse.map fun i =>
    ((List.range' (i + 1) (n - (i + 1))).reverse.map fun j =>
      Gate.cp (256 - 128 / 2 ^ (j - i)) j i) ++ [Gate.h i]).flatten

/-- The inverse QFT ladder of `apply_inverse_qft(qc, n)`: the qubit-order
reversal first, then the inverted phase/Hadamard ladder. -/
def apply_inverse_qft (n : ℕ) : List Gate := qftSwaps n ++ iqftPhase n

/-- The inverse phase ladder is exactly the reversed, gate-wise inverted
forward phase ladder. -/
lemma iqftPhase_eq_revInv (n : ℕ) :
    iqftPhase n = ((qftPhase n).map invG).reverse := by
  unfold qftPhase iqftPhase
  simp only [List.map_flatten, List.reverse_flatten, List.map_map,
    ← List.map_reverse]
  congr 1
  apply List.map_congr_left
  intro i _
  simp only [Function.comp_apply, List.map_cons, List.map_map, List.reverse_cons,
    invG, Function.comp, ← List.map_reverse]
  congr 1

lemma qftPhase_ok (n : ℕ) : ∀ g ∈ qftPhase n, GOk n g := by
  intro g hg
  unfold qftPhase at hg
  rw [List.mem_flatten] at hg
  obtain ⟨l, hl, hgl⟩ := hg
  rw [List.mem_map] at hl
  obtain ⟨i, hi, rfl⟩ := hl
  rw [List.mem_range] at hi
  rcases List.mem_cons.mp hgl with hh | hc
  · subst hh
    exact hi
  · rw [List.mem_map] at hc
    obtain ⟨j, _, rfl⟩ := hc
    show 128 / 2 ^ (j - i) ≤ 256
    exact le_trans (Nat.div_le_self _ _) (by norm_num)

lemma qftSwaps_ok (n : ℕ) : ∀ g ∈ qftSwaps n, GOk n g := by
  intro g hg
  unfold qftSwaps at hg
  rw [List.mem_map] at hg
  obtain ⟨i, hi, rfl⟩ := hg
  rw [List.mem_range] at hi
  exact ⟨by omega, by omega⟩

lemma qftSwaps_pairwise (n : ℕ) : (qftSwaps n).Pairwise (GComm n) := by
  unfold qftSwaps
  rw [List.pairwise_map]
  refine List.Pairwise.imp_of_mem ?_ (List.pairwise_lt_range (n / 2))
  intro i j hi hj hij
  rw [List.mem_range] at hi hj
  exact GComm_swap_swap i (n - i - 1) j (n - j - 1)
    (by omega) (by omega) (by omega) (by omega)

lemma qftSwaps_selfinv (n : ℕ) :
    ∀ g ∈ qftSwaps n, ∀ ψ : QState n, applyG g (applyG g ψ) = ψ := by
  intro g hg ψ
  unfold qftSwaps at hg
  rw [List.mem_map] at hg
  obtain ⟨i, hi, rfl⟩ := hg
  rw [List.mem_range] at hi
  exact applyG_swap_swap i (n - i - 1) (by omega) (by omega) ψ

/-- C2.  For every register size n ≤ 8 and every computational-basis input,
the forward QFT ladder built by `apply_qft` followed by the inverse ladder
built by `apply_inverse_qft` reproduces the input basis state exactly (in
particular, up to global phase the composite acts as the identity: the
phase is 1). -/
theorem qft_then_inverse_qft_is_identity (n : ℕ) (hn : n ≤ 8) (x : Fin n → Bool) :
    applyList (apply_inverse_qft n) (applyList (apply_qft n) (basisState x)) =
      basisState x := by
  rw [apply_qft, apply_inverse_qft, applyList_append, applyList_append,
    applyList_selfinv (qftSwaps n) (qftSwaps_pairwise n) (qftSwaps_selfinv n),
    iqftPhase_eq_revInv]
  exact applyList_revInv (qftPhase n) (qftPhase_ok n) (basisState x)

/-- Witness for C2 at the concrete size n = 3 and basis input 101
(qubit 0 and qubit 2 set). -/
theorem qft_then_inverse_qft_is_identity_witness :
    (3 ≤ 8) ∧
      (applyList (apply_inverse_qft 3)
          (applyList (apply_qft 3) (basisState (fun i : Fin 3 => decide (i.val ≠ 1)))) =
        basisState (fun i : Fin 3 => decide (i.val ≠ 1))) :=
  ⟨by norm_num,
    qft_then_inverse_qft_is_identity 3 (by norm_num) (fun i : Fin 3 => decide (i.val ≠ 1))⟩

/-! ### Hadamard blocks on basis states -/

/-- Parity (xor-fold) of a list of booleans. -/
def parityList (l : List Bool) : Bool := l.foldr Bool.xor false

lemma parityList_cons (b : Bool) (l : List Bool) :
    parityList (b :: l) = Bool.xor b (parityList l) := rfl

lemma parityList_append_singleton (l : List Bool) (x : Bool) :
    parityList (l ++ [x]) = Bool.xor (parityList l) x := by
  induction l with
  | nil => simp [parityList]
  | cons a t ih =>
      rw [List.cons_append, parityList_cons, ih, parityList_cons, Bool.xor_assoc]

/-- The scalar (1/√2)^k (times 1). -/
def isq (k : ℕ) : Cyc := invSqrt2^[k] cycOne

lemma isq_succ (k : ℕ) : invSqrt2 (isq k) = isq (k + 1) :=
  (Function.iterate_succ_apply' invSqrt2 k cycOne).symm

/-- Any two Hadamard gates commute. -/
lemma GComm_h_h' (a b : ℕ) {m : ℕ} (ψ : QState m) :
    applyG (Gate.h a) (applyG (Gate.h b) ψ) = applyG (Gate.h b) (applyG (Gate.h a) ψ) := by
  by_cases hab : a = b
  · subst hab; rfl
  · exact GComm_h_h a b hab ψ

/-- A block of Hadamard gates may be applied in any order. -/
lemma applyList_h_perm {m : ℕ} {l l' : List ℕ} (hp : l.Perm l') (ψ : QState m) :
    applyList (l.map Gate.h) ψ = applyList (l'.map Gate.h) ψ := by
  induction hp generalizing ψ with
  | nil => rfl
  | cons a _ ih =>
      simp only [List.map_cons, applyList_cons]
      rw [ih]
  | swap a b l =>
      simp only [List.map_cons, applyList_cons]
      rw [GComm_h_h' a b ψ]
  | trans _ _ ih1 ih2 => rw [ih1, ih2]

/-- Pull an involutive basis-permutation out of the state argument. -/
lemma basis_pullback {m : ℕ} (T : (Fin m → Bool) → (Fin m → Bool))
    (hT : ∀ w, T (T w) = w) (b : Fin m → Bool) :
    (fun z => basisState b (T z)) = basisState (T b) := by
  funext z
  unfold basisState
  by_cases hz : T z = b
  · rw [if_pos hz, if_pos (by rw [← hz, hT])]
  · rw [if_neg hz, if_neg (fun h => hz (by rw [h, hT]))]

lemma xFlip_invol {m : ℕ} (q : ℕ) (w : Fin m → Bool) :
    setQ (setQ w q (!(getQ w q))) q (!(getQ (setQ w q (!(getQ w q))) q)) = w := by
  by_cases hq : q < m
  · rw [getQ_setQ_self _ _ _ hq, Bool.not_not, setQ_setQ_self, setQ_getQ_self]
  · rw [setQ_oor _ _ _ (le_of_not_lt hq), setQ_oor _ _ _ (le_of_not_lt hq)]

/-- An `x` gate maps a basis state to the basis state with the bit flipped. -/
lemma applyG_x_basis {m : ℕ} (q : ℕ) (b : Fin m → Bool) :
    applyG (Gate.x q) (basisState b) = basisState (setQ b q (!(getQ b q))) := by
  show (fun z => basisState b (setQ z q (!(getQ z q)))) = _
  exact basis_pullback (fun w => setQ w q (!(getQ w q))) (xFlip_invol q) b

/-- Closed form: the Hadamard block on qubits `0, …, k-1` applied to the
basis state `b`, evaluated at basis vector `z`.  The amplitude vanishes
unless `z` agrees with `b` on the untouched qubits (index ≥ k), and is
otherwise (1/√2)^k times (-1)^(number of qubits `q < k` with both `b q`
and `z q` set). -/
lemma applyList_hRange_basis {m : ℕ} :
    ∀ (k : ℕ), k ≤ m → ∀ (b z : Fin m → Bool),
      applyList ((List.range k).map Gate.h) (basisState b) z =
        if ∀ i : Fin m, k ≤ (i : ℕ) → z i = b i
        then negIf (parityList ((List.range k).map fun q => getQ b q && getQ z q))
          (isq k)
        else 0 := by
  intro k
  induction k with
  | zero =>
      intro _ b z
      by_cases hzb : z = b
      · subst hzb
        rw [if_pos (fun i _ => rfl)]
        show (if z = z then cycOne else 0) = _
        rw [if_pos rfl]
        rfl
      · show (if z = b then cycOne else 0) = _
        rw [if_neg hzb,
          if_neg (fun hc => hzb (funext fun i => hc i (Nat.zero_le _)))]
  | succ k ih =>
      intro hk b z
      have hkm : k < m := by omega
      rw [List.range_succ]
      simp only [List.map_append, List.map_cons, List.map_nil]
      rw [applyList_concat]
      show invSqrt2
          (applyList ((List.range k).map Gate.h) (basisState b) (setQ z k false) +
            negIf (getQ z k)
              (applyList ((List.range k).map Gate.h) (basisState b) (setQ z k true))) = _
      rw [ih (by omega) b (setQ z k false), ih (by omega) b (setQ z k true)]
      have hCiff : ∀ β : Bool,
          (∀ i : Fin m, k ≤ (i : ℕ) → setQ z k β i = b i) ↔
            (β = getQ b k ∧ ∀ i : Fin m, k + 1 ≤ (i : ℕ) → z i = b i) := by
        intro β
        constructor
        · intro hC
          refine ⟨?_, ?_⟩
          · have hk' := hC ⟨k, hkm⟩ (by simp)
            rw [show setQ z k β ⟨k, hkm⟩ = β from if_pos rfl] at hk'
            rw [hk', getQ_val_eq b ⟨k, hkm⟩ k rfl]
          · intro i hi
            have h2 := hC i (by omega)
            rwa [show setQ z k β i = z i from if_neg (by omega)] at h2
        · rintro ⟨hβ, hz⟩ i hi
          by_cases hik : (i : ℕ) = k
          · rw [show setQ z k β i = β from if_pos hik, hβ, getQ_val_eq b i k hik]
          · rw [show setQ z k β i = z i from if_neg hik]
            exact hz i (by omega)
      have hPar : ∀ β : Bool,
          parityList ((List.range k).map fun q => getQ b q && getQ (setQ z k β) q) =
            parityList ((List.range k).map fun q => getQ b q && getQ z q) := by
        intro β
        refine congrArg parityList (List.map_congr_left ?_)
        intro q hq
        rw [List.mem_range] at hq
        rw [getQ_setQ_ne z k q β (by omega)]
      simp only [hCiff, hPar]
      rw [parityList_append_singleton]
      by_cases hC : ∀ i : Fin m, k + 1 ≤ (i : ℕ) → z i = b i
      · cases hγ : getQ b k
        · rw [if_pos ⟨rfl, hC⟩, if_neg (fun hcon => absurd hcon.1 (by decide)),
            if_pos hC, negIf_zero, add_zero, invSqrt2_negIf, isq_succ,
            Bool.false_and, Bool.xor_false]
        · rw [if_neg (fun hcon => absurd hcon.1 (by decide)),
            if_pos ⟨rfl, hC⟩, if_pos hC, zero_add, negIf_negIf, invSqrt2_negIf,
            isq_succ, Bool.true_and, Bool.xor_comm]
      · rw [if_neg (fun h => hC h.2), if_neg (fun h => hC h.2), if_neg hC,
          negIf_zero, add_zero, invSqrt2_zero]

/-! ### The Bernstein–Vazirani oracle (`create_oracle` in the notebook)

`create_oracle(secret_string)` builds an (n+1)-qubit circuit: it reverses
the secret string (Qiskit little-endian convention) and, for each set bit
at position `i` of the reversed string, adds `cx(i, n)` — a CNOT from
input qubit `i` to the ancilla qubit `n`.  Bits are modelled as `Bool`
(the notebook uses the characters 0/1 of a Python string). -/

/-- The loop body of `create_oracle`: walk the (already reversed) secret
string with index `i`, emitting `cx i n` for each set bit. -/
def oracleAux (n : ℕ) : ℕ → List Bool → List Gate
  | _, [] => []
  | i, b :: rest => (if b then [Gate.cx i n] else []) ++ oracleAux n (i + 1) rest

/-- `create_oracle(s)`: CNOTs from each set bit of the reversed secret
string to the ancilla qubit `s.length`. -/
def create_oracle (s : List Bool) : List Gate := oracleAux s.length 0 s.reverse

/-- The mod-2 dot product of the (reversed-)secret bits against the qubit
values of `z`, starting at qubit `i`. -/
def secretDotAux {m : ℕ} (z : Fin m → Bool) : ℕ → List Bool → Bool
  | _, [] => false
  | i, b :: rest => Bool.xor (b && getQ z i) (secretDotAux z (i + 1) rest)

/-- `secretDot s z`: the mod-2 dot product Σ_i s_reversed[i]·z_i, i.e. the
classical function the oracle computes on the input qubits of `z`. -/
def secretDot {m : ℕ} (s : List Bool) (z : Fin m → Bool) : Bool :=
  secretDotAux z 0 s.reverse

lemma applyList_oracleAux {m : ℕ} (n : ℕ) (hn : n < m) :
    ∀ (l : List Bool) (i : ℕ), i + l.length ≤ n → ∀ ψ : QState m,
      applyList (oracleAux n i l) ψ =
        fun z => ψ (setQ z n (Bool.xor (getQ z n) (secretDotAux z i l))) := by
  intro l
  induction l with
  | nil =>
      intro i _ ψ
      funext z
      show ψ z = ψ (setQ z n (Bool.xor (getQ z n) false))
      rw [Bool.xor_false, setQ_getQ_self]
  | cons b rest ih =>
      intro i hi ψ
      cases b
      · show applyList (oracleAux n (i + 1) rest) ψ = _
        rw [ih (i + 1) (by simp at hi; omega) ψ]
        funext z
        show ψ (setQ z n (Bool.xor (getQ z n) (secretDotAux z (i + 1) rest))) =
          ψ (setQ z n (Bool.xor (getQ z n)
            (Bool.xor (false && getQ z i) (secretDotAux z (i + 1) rest))))
        rw [Bool.false_and, Bool.false_xor]
      · show applyList (Gate.cx i n :: oracleAux n (i + 1) rest) ψ = _
        rw [applyList_cons, ih (i + 1) (by simp at hi; omega) (applyG (Gate.cx i n) ψ)]
        funext z
        show applyG (Gate.cx i n) ψ
            (setQ z n (Bool.xor (getQ z n) (secretDotAux z (i + 1) rest))) = _
        simp only [applyG]
        rw [getQ_setQ_self _ _ _ hn, getQ_setQ_ne z n i _ (by simp at hi; omega),
          setQ_setQ_self]
        have hb : ∀ a d g : Bool,
            Bool.xor (Bool.xor a d) g = Bool.xor a (Bool.xor (true && g) d) := by
          decide
        rw [hb]
        rfl

/-- Action of the whole oracle circuit on an arbitrary state: it pulls the
state back along the basis permutation that xors the mod-2 dot product of
the secret and the input qubits into the ancilla qubit. -/
lemma applyList_create_oracle {m : ℕ} (s : List Bool) (hm : s.length < m)
    (ψ : QState m) :
    applyList (create_oracle s) ψ =
      fun z => ψ (setQ z s.length (Bool.xor (getQ z s.length) (secretDot s z))) := by
  unfold create_oracle secretDot
  exact applyList_oracleAux s.length hm s.reverse 0
    (by simp) ψ

lemma secretDotAux_setQ {m : ℕ} (n : ℕ) (v : Bool) :
    ∀ (l : List Bool) (i : ℕ), i + l.length ≤ n → ∀ z : Fin m → Bool,
      secretDotAux (setQ z n v) i l = secretDotAux z i l := by
  intro l
  induction l with
  | nil => intro i _ z; rfl
  | cons b rest ih =>
      intro i hi z
      show Bool.xor (b && getQ (setQ z n v) i) _ = Bool.xor (b && getQ z i) _
      rw [getQ_setQ_ne z n i v (by simp at hi; omega), ih (i + 1) (by simp at hi; omega) z]

lemma secretDot_setQ {m : ℕ} (s : List Bool) (v : Bool) (z : Fin m → Bool) :
    secretDot s (setQ z s.length v) = secretDot s z := by
  unfold secretDot
  exact secretDotAux_setQ s.length v s.reverse 0 (by simp) z

/-- The oracle maps each basis state to a basis state: the input qubits
are unchanged and the ancilla is xored with the dot product. -/
lemma applyList_create_oracle_basis {m : ℕ} (s : List Bool) (hm : s.length < m)
    (w : Fin m → Bool) :
    applyList (create_oracle s) (basisState w) =
      basisState (setQ w s.length (Bool.xor (getQ w s.length) (secretDot s w))) := by
  rw [applyList_create_oracle s hm]
  refine basis_pullback
    (fun z => setQ z s.length (Bool.xor (getQ z s.length) (secretDot s z))) ?_ w
  intro u
  simp only []
  rw [secretDot_setQ s, getQ_setQ_self _ _ _ hm, setQ_setQ_self]
  have hxx : ∀ a d : Bool, Bool.xor (Bool.xor a d) d = a := by decide
  rw [hxx, setQ_getQ_self]

/-! ### The Bernstein–Vazirani algorithm circuit -/

/-- `bernstein_vazirani(oracle)` on an oracle over `n+1` qubits (`n` input
qubits plus the ancilla, `n = oracle.num_qubits - 1` in the notebook):
X on the ancilla, Hadamards on all `n+1` qubits, the oracle, Hadamards on
the `n` input qubits, then measurement of the input qubits (measurement is
modelled by reading the final state). -/
def bernstein_vazirani (n : ℕ) (oracle : List Gate) : List Gate :=
  Gate.x n ::
    ((List.range (n + 1)).map Gate.h ++ oracle ++ (List.range n).map Gate.h)

/-- The bit pattern the input qubits should hold at the end: qubit `i`
carries bit `i` of the reversed secret string (Qiskit little-endian), and
the ancilla position holds `false`. -/
def secretPattern (s : List Bool) : Fin (s.length + 1) → Bool :=
  fun i => (s.reverse).getD i.val false

lemma parityList_all_false :
    ∀ (l : List ℕ) (f : ℕ → Bool), (∀ q ∈ l, f q = false) →
      parityList (l.map f) = false := by
  intro l
  induction l with
  | nil => intro f _; rfl
  | cons a t ih =>
      intro f hf
      rw [List.map_cons, parityList_cons, hf a (List.mem_cons_self a t),
        ih f (fun q hq => hf q (List.mem_cons_of_mem a hq)), Bool.xor_false]

lemma parityList_one_hot :
    ∀ (l : List ℕ), l.Nodup → ∀ (f : ℕ → Bool) (j : ℕ), j ∈ l →
      (∀ q ∈ l, q ≠ j → f q = false) → parityList (l.map f) = f j := by
  intro l
  induction l with
  | nil => intro _ f j hj; exact absurd hj (List.not_mem_nil j)
  | cons a t ih =>
      intro hnd f j hj hf
      rw [List.map_cons, parityList_cons]
      by_cases hja : j = a
      · subst hja
        rw [parityList_all_false t f
          (fun q hq => hf q (List.mem_cons_of_mem j hq)
            (fun hqj => (List.nodup_cons.mp hnd).1 (hqj ▸ hq))), Bool.xor_false]
      · rw [hf a (List.mem_cons_self a t) (fun haj => hja haj.symm), Bool.false_xor]
        exact ih (List.nodup_cons.mp hnd).2 f j
          (List.mem_of_ne_of_mem (fun hja' => hja hja') hj)
          (fun q hq => hf q (List.mem_cons_of_mem a hq))

lemma secretDotAux_parity {m : ℕ} (z : Fin m → Bool) :
    ∀ (l : List Bool) (i : ℕ),
      secretDotAux z i l =
        parityList ((List.range l.length).map fun q =>
          l.getD q false && getQ z (i + q)) := by
  intro l
  induction l with
  | nil => intro i; rfl
  | cons b rest ih =>
      intro i
      show Bool.xor (b && getQ z i) (secretDotAux z (i + 1) rest) = _
      rw [show (b :: rest).length = rest.length + 1 from rfl,
        List.range_succ_eq_map, List.map_cons, parityList_cons, List.map_map]
      congr 1
      rw [ih (i + 1)]
      refine congrArg parityList (List.map_congr_left ?_)
      intro q _
      show (rest.getD q false && getQ z (i + 1 + q)) =
        ((b :: rest).getD (q + 1) false && getQ z (i + (q + 1)))
      rw [List.getD_cons_succ, show i + (q + 1) = i + 1 + q by omega]

lemma secretDot_parity {m : ℕ} (s : List Bool) (z : Fin m → Bool) :
    secretDot s z =
      parityList ((List.range s.length).map fun q =>
        (s.reverse).getD q false && getQ z q) := by
  unfold secretDot
  rw [secretDotAux_parity z s.reverse 0, List.length_reverse]
  refine congrArg parityList (List.map_congr_left ?_)
  intro q _
  rw [Nat.zero_add]

/-- C1.  The Bernstein–Vazirani circuit `bernstein_vazirani(create_oracle(s))`
run on |0…0⟩ ends, before measurement, in exactly the product state
|rev s⟩ ⊗ (H X |0⟩) — the `n` input qubits hold the reversed secret string
(qubit `i` = bit `i` of the Qiskit little-endian string), so measuring the
input qubits yields the classical register whose printed value is `s`, with
certainty and with the oracle used exactly once in the circuit.  The second
conjunct states the certainty directly: every basis vector with nonzero
final amplitude agrees with the reversed secret on all input qubits. -/
theorem bernstein_vazirani_recovers_secret (s : List Bool) (hs : s.length ≤ 8) :
    applyList (bernstein_vazirani s.length (create_oracle s))
        (basisState (fun _ => false)) =
      applyList [Gate.x s.length, Gate.h s.length] (basisState (secretPattern s)) ∧
    ∀ z : Fin (s.length + 1) → Bool,
      applyList (bernstein_vazirani s.length (create_oracle s))
          (basisState (fun _ => false)) z ≠ 0 →
        ∀ i : Fin (s.length + 1), (i : ℕ) < s.length →
          z i = (s.reverse).getD i.val false := by
  have hnm : s.length < s.length + 1 := Nat.lt_succ_self s.length
  have hz0 : ∀ q : ℕ, getQ (fun _ : Fin (s.length + 1) => false) q = false := by
    intro q; unfold getQ; split <;> rfl
  have hgsp : getQ (secretPattern s) s.length = false := by
    rw [getQ_val_eq (secretPattern s) ⟨s.length, hnm⟩ s.length rfl]
    show (s.reverse).getD s.length false = false
    exact List.getD_eq_default _ _ (by simp)
  have hgspq : ∀ q : ℕ, q < s.length →
      getQ (secretPattern s) q = (s.reverse).getD q false := by
    intro q hq
    rw [getQ_val_eq (secretPattern s) ⟨q, by omega⟩ q rfl]
    rfl
  have hT : applyList [Gate.x s.length, Gate.h s.length]
        (basisState (secretPattern s)) =
      applyG (Gate.h s.length)
        (basisState (setQ (secretPattern s) s.length true)) := by
    show applyG (Gate.h s.length)
        (applyG (Gate.x s.length) (basisState (secretPattern s))) = _
    rw [applyG_x_basis, hgsp, Bool.not_false]
  have hBT : applyList ((List.range s.length).map Gate.h)
        (applyList [Gate.x s.length, Gate.h s.length]
          (basisState (secretPattern s))) =
      applyList ((List.range (s.length + 1)).map Gate.h)
        (basisState (setQ (secretPattern s) s.length true)) := by
    rw [hT, ← applyList_cons,
      show Gate.h s.length :: (List.range s.length).map Gate.h =
        (s.length :: List.range s.length).map Gate.h from rfl]
    have hperm : (s.length :: List.range s.length).Perm (List.range (s.length + 1)) := by
      rw [List.range_succ]
      exact (List.perm_append_singleton s.length (List.range s.length)).symm
    exact applyList_h_perm hperm _
  have hmid : applyList (create_oracle s)
        (applyList ((List.range (s.length + 1)).map Gate.h)
          (basisState (setQ (fun _ => false) s.length true))) =
      applyList ((List.range (s.length + 1)).map Gate.h)
        (basisState (setQ (secretPattern s) s.length true)) := by
    rw [applyList_create_oracle s hnm]
    funext z
    rw [applyList_hRange_basis (s.length + 1) le_rfl _ _,
      applyList_hRange_basis (s.length + 1) le_rfl _ _,
      if_pos (fun (i : Fin (s.length + 1)) hi =>
        absurd hi (by have := i.isLt; omega)),
      if_pos (fun (i : Fin (s.length + 1)) hi =>
        absurd hi (by have := i.isLt; omega))]
    congr 1
    have hL : parityList ((List.range (s.length + 1)).map fun q =>
        getQ (setQ (fun _ : Fin (s.length + 1) => false) s.length true) q &&
          getQ (setQ z s.length (Bool.xor (getQ z s.length) (secretDot s z))) q) =
        Bool.xor (getQ z s.length) (secretDot s z) := by
      rw [parityList_one_hot (List.range (s.length + 1)) (List.nodup_range _) _
        s.length (List.mem_range.mpr hnm)
        (fun q _ hqn => by
          rw [getQ_setQ_ne _ _ _ _ (fun h => hqn h.symm), hz0 q, Bool.false_and])]
      rw [getQ_setQ_self _ _ _ hnm, getQ_setQ_self _ _ _ hnm, Bool.true_and]
    have hR : parityList ((List.range (s.length + 1)).map fun q =>
        getQ (setQ (secretPattern s) s.length true) q && getQ z q) =
        Bool.xor (secretDot s z) (getQ z s.length) := by
      rw [List.range_succ, List.map_append]
      simp only [List.map_cons, List.map_nil]
      rw [parityList_append_singleton, getQ_setQ_self _ _ _ hnm, Bool.true_and]
      congr 1
      rw [secretDot_parity s z]
      refine congrArg parityList (List.map_congr_left ?_)
      intro q hq
      rw [List.mem_range] at hq
      rw [getQ_setQ_ne _ _ _ _ (by omega), hgspq q hq]
    rw [hL, hR, Bool.xor_comm]
  have hBB : ∀ ψ : QState (s.length + 1),
      applyList ((List.range s.length).map Gate.h)
        (applyList ((List.range s.length).map Gate.h) ψ) = ψ := by
    intro ψ
    apply applyList_selfinv
    · rw [List.pairwise_map]
      refine List.Pairwise.imp_of_mem ?_ (List.pairwise_lt_range s.length)
      intro a b _ _ _
      exact fun ψ' => GComm_h_h' a b ψ'
    · intro g hg ψ'
      rw [List.mem_map] at hg
      obtain ⟨q, hq, rfl⟩ := hg
      rw [List.mem_range] at hq
      exact applyG_h_h q (by omega) ψ'
  have hfinal : applyList (bernstein_vazirani s.length (create_oracle s))
        (basisState (fun _ => false)) =
      applyList [Gate.x s.length, Gate.h s.length]
        (basisState (secretPattern s)) := by
    show applyList
        ((List.range (s.length + 1)).map Gate.h ++ create_oracle s ++
          (List.range s.length).map Gate.h)
        (applyG (Gate.x s.length) (basisState (fun _ => false))) = _
    rw [applyList_append, applyList_append, applyG_x_basis, hz0 s.length,
      Bool.not_false, hmid, ← hBT, hBB]
  refine ⟨hfinal, ?_⟩
  intro z hz i hi
  rw [hfinal] at hz
  by_contra hne
  apply hz
  show applyG (Gate.h s.length)
      (applyG (Gate.x s.length) (basisState (secretPattern s))) z = 0
  rw [applyG_x_basis, hgsp, Bool.not_false]
  simp only [applyG]
  have hb : ∀ β : Bool,
      basisState (setQ (secretPattern s) s.length true) (setQ z s.length β) = 0 := by
    intro β
    unfold basisState
    rw [if_neg]
    intro hcon
    have hci := congrFun hcon i
    rw [show setQ z s.length β i = z i from if_neg (by omega),
      show setQ (secretPattern s) s.length true i = secretPattern s i from
        if_neg (by omega)] at hci
    exact hne hci
  rw [hb false, hb true, negIf_zero, add_zero, invSqrt2_zero]

/-- Witness for C1 at the concrete secret string 101. -/
theorem bernstein_vazirani_recovers_secret_witness :
    ([true, false, true].length ≤ 8) ∧
      (applyList (bernstein_vazirani [true, false, true].length
            (create_oracle [true, false, true]))
          (basisState (fun _ => false)) =
        applyList [Gate.x [true, false, true].length,
            Gate.h [true, false, true].length]
          (basisState (secretPattern [true, false, true])) ∧
        ∀ z : Fin ([true, false, true].length + 1) → Bool,
          applyList (bernstein_vazirani [true, false, true].length
              (create_oracle [true, false, true]))
            (basisState (fun _ => false)) z ≠ 0 →
          ∀ i : Fin ([true, false, true].length + 1),
            (i : ℕ) < [true, false, true].length →
              z i = ([true, false, true].reverse).getD i.val false) :=
  ⟨by decide, bernstein_vazirani_recovers_secret [true, false, true] (by decide)⟩

/-! ### The oracle as a classical function (C3, C10) -/

/-- Load a classical bit-string input `x` onto the input qubits, ancilla
clear: qubit `i` holds bit `i` of the reversed string (the notebooks'
`enumerate(reversed(...))` convention). -/
def embedInput (s x : List Bool) : Fin (s.length + 1) → Bool :=
  fun i => (x.reverse).getD i.val false

/-- Mod-2 dot product of two bit lists (pairing positionally, excess
entries of either list ignored). -/
def zipDot : List Bool → List Bool → Bool
  | a :: u, b :: v => Bool.xor (a && b) (zipDot u v)
  | _, _ => false

lemma zipDot_nil_right : ∀ u : List Bool, zipDot u [] = false := by
  intro u; cases u <;> rfl

lemma sda_embed (s x : List Bool) :
    ∀ (l : List Bool) (i : ℕ), i + l.length ≤ s.length →
      secretDotAux (embedInput s x) i l = zipDot ((x.reverse).drop i) l := by
  intro l
  induction l with
  | nil => intro i _; rw [zipDot_nil_right]; rfl
  | cons b rest ih =>
      intro i hi
      have hil : i < s.length := by simp at hi; omega
      have hget : getQ (embedInput s x) i = (x.reverse).getD i false := by
        rw [getQ_val_eq (embedInput s x) ⟨i, by omega⟩ i rfl]
        rfl
      show Bool.xor (b && getQ (embedInput s x) i)
          (secretDotAux (embedInput s x) (i + 1) rest) = _
      rw [hget, ih (i + 1) (by simp at hi; omega)]
      by_cases hix : i < (x.reverse).length
      · rw [List.drop_eq_getElem_cons hix, List.getD_eq_getElem _ _ hix]
        show Bool.xor (b && (x.reverse)[i])
            (zipDot ((x.reverse).drop (i + 1)) rest) =
          Bool.xor ((x.reverse)[i] && b) (zipDot ((x.reverse).drop (i + 1)) rest)
        rw [Bool.and_comm]
      · rw [List.getD_eq_default _ _ (by omega),
          List.drop_eq_nil_of_le (by omega : (x.reverse).length ≤ i),
          List.drop_eq_nil_of_le (by omega : (x.reverse).length ≤ i + 1)]
        cases b <;> rfl

lemma zipDot_append_singleton :
    ∀ (u v : List Bool), u.length = v.length → ∀ (a b : Bool),
      zipDot (u ++ [a]) (v ++ [b]) = Bool.xor (zipDot u v) (a && b) := by
  intro u
  induction u with
  | nil =>
      intro v hv a b
      cases v
      · cases a <;> cases b <;> rfl
      · simp at hv
  | cons c u' ih =>
      intro v hv a b
      cases v with
      | nil => simp at hv
      | cons d v' =>
          show Bool.xor (c && d) (zipDot (u' ++ [a]) (v' ++ [b])) =
            Bool.xor (Bool.xor (c && d) (zipDot u' v')) (a && b)
          rw [ih v' (by simpa using hv) a b, Bool.xor_assoc]

lemma zipDot_reverse :
    ∀ (x s : List Bool), x.length = s.length →
      zipDot x.reverse s.reverse = zipDot x s := by
  intro x
  induction x with
  | nil =>
      intro s hs
      cases s
      · rfl
      · simp at hs
  | cons a u ih =>
      intro s hs
      cases s with
      | nil => simp at hs
      | cons b v =>
          rw [List.reverse_cons, List.reverse_cons,
            zipDot_append_singleton u.reverse v.reverse
              (by simp; simpa using hs) a b,
            ih v (by simpa using hs)]
          show Bool.xor (zipDot u v) (a && b) = Bool.xor (a && b) (zipDot u v)
          rw [Bool.xor_comm]

lemma zipDot_count :
    ∀ (x s : List Bool),
      (zipDot x s = true ↔
        ((x.zip s).countP fun p => p.1 && p.2) % 2 = 1) := by
  intro x
  induction x with
  | nil =>
      intro s
      show (false = true ↔ _)
      simp [List.countP_nil]
  | cons a u ih =>
      intro s
      cases s with
      | nil =>
          rw [zipDot_nil_right]
          simp [List.countP_nil]
      | cons b v =>
          have ihv := ih v
          show (Bool.xor (a && b) (zipDot u v) = true ↔ _)
          rw [List.zip_cons_cons, List.countP_cons]
          rcases hab : (a && b) <;> rcases hd : zipDot u v <;>
            rw [hd] at ihv <;> simp [hab] at ihv ⊢ <;> omega

/-- C3.  The oracle circuit built by `create_oracle(s)` maps every basis
state to a basis state in which the input qubits are unchanged and the
ancilla (qubit `s.length`) is xored with `secretDot s`, the mod-2 dot
product of the reversed secret string against the input qubits; and for a
classical input string `x` of the same length loaded little-endian,
`secretDot` is exactly popcount(x AND s) mod 2. -/
theorem create_oracle_computes_dot_product (s : List Bool) :
    (∀ w : Fin (s.length + 1) → Bool,
      applyList (create_oracle s) (basisState w) =
        basisState
          (setQ w s.length (Bool.xor (getQ w s.length) (secretDot s w)))) ∧
    (∀ x : List Bool, x.length = s.length →
      (secretDot s (embedInput s x) = true ↔
        ((x.zip s).countP fun p => p.1 && p.2) % 2 = 1)) := by
  constructor
  · intro w
    exact applyList_create_oracle_basis s (Nat.lt_succ_self _) w
  · intro x hx
    have h1 : secretDot s (embedInput s x) = zipDot x.reverse s.reverse := by
      unfold secretDot
      rw [sda_embed s x s.reverse 0 (by simp), List.drop_zero]
    rw [h1, zipDot_reverse x s hx]
    exact zipDot_count x s

/-- Witness for C3: secret 10, input 11 — dot product is 1·1 + 0·1 = 1. -/
theorem create_oracle_computes_dot_product_witness :
    ([true, true].length = [true, false].length) ∧
      (secretDot [true, false] (embedInput [true, false] [true, true]) = true ↔
        (([true, true].zip [true, false]).countP fun p => p.1 && p.2) % 2 = 1) :=
  ⟨by decide,
    (create_oracle_computes_dot_product [true, false]).2 [true, true] (by decide)⟩

/-- C10.  Structurally, `create_oracle s` contains only CNOT gates whose
target is the ancilla qubit `s.length` (with controls among the input
qubits); semantically, on every basis state it can change at most the
ancilla bit, leaving all input qubits untouched. -/
theorem create_oracle_only_touches_ancilla (s : List Bool) :
    (∀ g ∈ create_oracle s, ∃ c, c < s.length ∧ g = Gate.cx c s.length) ∧
    (∀ w : Fin (s.length + 1) → Bool, ∃ b : Bool,
      applyList (create_oracle s) (basisState w) =
        basisState (setQ w s.length b)) := by
  constructor
  · have haux : ∀ (l : List Bool) (i : ℕ), ∀ g ∈ oracleAux s.length i l,
        ∃ c, i ≤ c ∧ c < i + l.length ∧ g = Gate.cx c s.length := by
      intro l
      induction l with
      | nil => intro i g hg; exact absurd hg (List.not_mem_nil g)
      | cons b rest ih =>
          intro i g hg
          cases b
          · rw [show oracleAux s.length i (false :: rest) =
              oracleAux s.length (i + 1) rest from rfl] at hg
            obtain ⟨c, h1, h2, h3⟩ := ih (i + 1) g hg
            exact ⟨c, by omega, by simp; omega, h3⟩
          · rw [show oracleAux s.length i (true :: rest) =
              Gate.cx i s.length :: oracleAux s.length (i + 1) rest from rfl] at hg
            rcases List.mem_cons.mp hg with h | h
            · exact ⟨i, le_rfl, by simp, h⟩
            · obtain ⟨c, h1, h2, h3⟩ := ih (i + 1) g h
              exact ⟨c, by omega, by simp; omega, h3⟩
    intro g hg
    obtain ⟨c, _, h2, h3⟩ := haux s.reverse 0 g hg
    exact ⟨c, by simp at h2; omega, h3⟩
  · intro w
    exact ⟨Bool.xor (getQ w s.length) (secretDot s w),
      applyList_create_oracle_basis s (Nat.lt_succ_self _) w⟩

/-- Witness for C10 at the one-bit secret 1: its single gate is the CNOT
from qubit 0 to the ancilla, and the zero basis state is mapped to a basis
state touching only the ancilla. -/
theorem create_oracle_only_touches_ancilla_witness :
    (∃ c, c < [true].length ∧ Gate.cx 0 1 = Gate.cx c [true].length) ∧
      (∃ b : Bool,
        applyList (create_oracle [true])
            (basisState (fun _ : Fin ([true].length + 1) => false)) =
          basisState (setQ (fun _ => false) [true].length b)) :=
  ⟨(create_oracle_only_touches_ancilla [true]).1 (Gate.cx 0 1) (by decide),
    (create_oracle_only_touches_ancilla [true]).2 (fun _ => false)⟩

/-! ### The binary shift circuit (`Binary Shift.ipynb`)

`create_shift_circuit(input_bits, direction)` builds a 4-qubit circuit:
X gates load the reversed input string, then three adjacent swaps —
(0,1),(1,2),(2,3) for "right", (2,3),(1,2),(0,1) for "left" — any other
direction raises a ValueError.  The circuit contains only X and SWAP
gates, so it permutes basis states and the measured output is
deterministic: we model the measurement-counts result as the single
output bit string q3 q2 q1 q0 (most significant qubit first, as in the
Qiskit counts key). -/

/-- Classical (basis-permutation) action of the X/CNOT/SWAP gates. -/
def permStep {m : ℕ} : Gate → (Fin m → Bool) → Fin m → Bool
  | .x q, z => setQ z q (!(getQ z q))
  | .cx c t, z => setQ z t (Bool.xor (getQ z t) (getQ z c))
  | .swap a b, z => swapQ a b z
  | _, z => z

/-- Run a list of permutation gates classically over a basis assignment. -/
def evalPerm {m : ℕ} (L : List Gate) (z : Fin m → Bool) : Fin m → Bool :=
  L.foldl (fun w g => permStep g w) z

/-- The gates that act as basis-state permutations. -/
def PermGate : Gate → Prop
  | .x _ => True
  | .cx _ _ => True
  | .swap _ _ => True
  | _ => False

instance {ε α : Type} [DecidableEq ε] [DecidableEq α] : DecidableEq (Except ε α) :=
  fun x y =>
    match x, y with
    | .ok a, .ok b =>
        if h : a = b then .isTrue (by rw [h])
        else .isFalse (by intro hc; cases hc; exact h rfl)
    | .error a, .error b =>
        if h : a = b then .isTrue (by rw [h])
        else .isFalse (by intro hc; cases hc; exact h rfl)
    | .ok _, .error _ => .isFalse (by intro hc; cases hc)
    | .error _, .ok _ => .isFalse (by intro hc; cases hc)

lemma cxFlip_invol {m : ℕ} (c t : ℕ) (hct : c ≠ t) (z : Fin m → Bool) :
    setQ (setQ z t (Bool.xor (getQ z t) (getQ z c))) t
      (Bool.xor (getQ (setQ z t (Bool.xor (getQ z t) (getQ z c))) t)
        (getQ (setQ z t (Bool.xor (getQ z t) (getQ z c))) c)) = z := by
  rw [getQ_setQ_ne _ _ _ _ (fun h => hct h.symm)]
  by_cases ht : t < m
  · rw [getQ_setQ_self _ _ _ ht, setQ_setQ_self]
    have hx : Bool.xor (Bool.xor (getQ z t) (getQ z c)) (getQ z c) = getQ z t := by
      cases getQ z t <;> cases getQ z c <;> rfl
    rw [hx, setQ_getQ_self]
  · rw [setQ_oor _ _ _ (by omega), setQ_oor _ _ _ (by omega)]

lemma applyG_cx_basis {m : ℕ} (c t : ℕ) (hct : c ≠ t) (w : Fin m → Bool) :
    applyG (Gate.cx c t) (basisState w) =
      basisState (setQ w t (Bool.xor (getQ w t) (getQ w c))) := by
  show (fun z => basisState w (setQ z t (Bool.xor (getQ z t) (getQ z c)))) = _
  exact basis_pullback (fun z => setQ z t (Bool.xor (getQ z t) (getQ z c)))
    (cxFlip_invol c t hct) w

lemma applyG_swap_basis {m : ℕ} (a b : ℕ) (ha : a < m) (hb : b < m)
    (w : Fin m → Bool) :
    applyG (Gate.swap a b) (basisState w) = basisState (swapQ a b w) := by
  show (fun z => basisState w (swapQ a b z)) = _
  exact basis_pullback (swapQ a b) (fun z => swapQ_invol a b z ha hb) w

/-- Circuits of well-formed permutation gates act on basis states exactly
as the classical evaluation `evalPerm`. -/
lemma applyList_perm_basis {m : ℕ} :
    ∀ (L : List Gate), (∀ g ∈ L, PermGate g ∧ GOk m g) →
      ∀ w : Fin m → Bool,
        applyList L (basisState w) = basisState (evalPerm L w) := by
  intro L
  induction L with
  | nil => intro _ w; rfl
  | cons g T ih =>
      intro hL w
      have hg := hL g (List.mem_cons_self g T)
      have hT := fun g' hg' => hL g' (List.mem_cons_of_mem g hg')
      rw [applyList_cons]
      cases g with
      | h q => exact absurd hg.1 (by simp [PermGate])
      | cp p c t => exact absurd hg.1 (by simp [PermGate])
      | x q => rw [applyG_x_basis]; exact ih hT _
      | cx c t => rw [applyG_cx_basis c t hg.2]; exact ih hT _
      | swap a b => rw [applyG_swap_basis a b hg.2.1 hg.2.2]; exact ih hT _

/-- X-gate initialization of the (reversed) input bits, as in
`for i, bit in enumerate(reversed(input_bits)): if bit: qc.x(i)`. -/
def xInitAux : ℕ → List Bool → List Gate
  | _, [] => []
  | i, b :: rest => (if b then [Gate.x i] else []) ++ xInitAux (i + 1) rest

/-- The full gate list of the shift circuit for a valid direction. -/
def shift_gates (input_bits : List Bool) (direction : String) : List Gate :=
  xInitAux 0 input_bits.reverse ++
    (if direction = "right" then [Gate.swap 0 1, Gate.swap 1 2, Gate.swap 2 3]
     else [Gate.swap 2 3, Gate.swap 1 2, Gate.swap 0 1])

/-- `create_shift_circuit(input_bits, direction)`: build the 4-qubit
circuit, run it, and return the deterministic measured counts key
(q3 q2 q1 q0); any direction other than "right"/"left" raises a
ValueError, modelled as `Except.error`. -/
def create_shift_circuit (input_bits : List Bool) (direction : String) :
    Except String (List Bool) :=
  if direction = "right" ∨ direction = "left" then
    let w : Fin 4 → Bool := evalPerm (shift_gates input_bits direction) (fun _ => false)
    Except.ok [w 3, w 2, w 1, w 0]
  else Except.error "Direction must be right or left."

lemma xInitAux_shape :
    ∀ (l : List Bool) (i : ℕ), ∀ g ∈ xInitAux i l, ∃ q, g = Gate.x q := by
  intro l
  induction l with
  | nil => intro i g hg; exact absurd hg (List.not_mem_nil g)
  | cons b rest ih =>
      intro i g hg
      cases b
      · rw [show xInitAux i (false :: rest) = xInitAux (i + 1) rest from rfl] at hg
        exact ih (i + 1) g hg
      · rw [show xInitAux i (true :: rest) =
          Gate.x i :: xInitAux (i + 1) rest from rfl] at hg
        rcases List.mem_cons.mp hg with h | h
        · exact ⟨i, h⟩
        · exact ih (i + 1) g h

/-- C6.  On input "1011" the shift circuit deterministically outputs
"1101" for direction "right" and "0111" for direction "left"; and the
quantum circuit agrees with the classical permutation semantics on every
basis state. -/
theorem shift_circuit_on_1011 :
    create_shift_circuit [true, false, true, true] "right" =
      Except.ok [true, true, false, true] ∧
    create_shift_circuit [true, false, true, true] "left" =
      Except.ok [false, true, true, true] ∧
    ∀ (bits : List Bool) (d : String) (z : Fin 4 → Bool),
      applyList (shift_gates bits d) (basisState z) =
        basisState (evalPerm (shift_gates bits d) z) := by
  refine ⟨by decide, by decide, ?_⟩
  intro bits d z
  apply applyList_perm_basis
  intro g hg
  rw [shift_gates, List.mem_append] at hg
  rcases hg with h | h
  · obtain ⟨q, rfl⟩ := xInitAux_shape bits.reverse 0 g h
    exact ⟨trivial, trivial⟩
  · split at h <;>
      simp only [List.mem_cons, List.not_mem_nil, or_false] at h <;>
      rcases h with rfl | rfl | rfl <;>
      exact ⟨trivial, by norm_num, by norm_num⟩

/-- C5.  Rotating any 4-bit string one step in either direction and then
rotating the result in the opposite direction returns the original
string. -/
theorem shift_round_trip (b : List Bool) (hb : b.length = 4) (d : String)
    (hd : d = "right" ∨ d = "left") :
    (create_shift_circuit b d).bind
        (fun out =>
          create_shift_circuit out (if d = "right" then "left" else "right")) =
      Except.ok b := by
  rcases b with _ | ⟨b0, _ | ⟨b1, _ | ⟨b2, _ | ⟨b3, _ | ⟨b4, t⟩⟩⟩⟩⟩ <;>
    simp at hb
  rcases hd with rfl | rfl
  · revert b0 b1 b2 b3; decide
  · revert b0 b1 b2 b3; decide

/-- Witness for C5: the concrete round trip 1011 → right → left → 1011. -/
theorem shift_round_trip_witness :
    ([true, false, true, true] : List Bool).length = 4 ∧
      (create_shift_circuit [true, false, true, true] "right").bind
          (fun out =>
            create_shift_circuit out
              (if "right" = "right" then "left" else "right")) =
        Except.ok [true, false, true, true] :=
  ⟨by decide, shift_round_trip [true, false, true, true] (by decide) "right"
    (Or.inl rfl)⟩

/-- C7.  Any direction other than "right"/"left" fails fast with the
ValueError message, for every input; the two valid directions never
raise. -/
theorem shift_invalid_direction (bits : List Bool) (d : String) :
    (d ≠ "right" → d ≠ "left" →
      create_shift_circuit bits d =
        Except.error "Direction must be right or left.") ∧
    (d = "right" ∨ d = "left" →
      ∃ out, create_shift_circuit bits d = Except.ok out) := by
  constructor
  · intro h1 h2
    unfold create_shift_circuit
    rw [if_neg]
    rintro (h | h)
    · exact h1 h
    · exact h2 h
  · intro hd
    unfold create_shift_circuit
    rw [if_pos hd]
    exact ⟨_, rfl⟩

/-- Witness for C7 at the invalid direction "up" and a valid one. -/
theorem shift_invalid_direction_witness :
    create_shift_circuit [true, false, true, true] "up" =
        Except.error "Direction must be right or left." ∧
      ∃ out, create_shift_circuit [true, false, true, true] "left" =
        Except.ok out :=
  ⟨(shift_invalid_direction [true, false, true, true] "up").1
      (by decide) (by decide),
    (shift_invalid_direction [true, false, true, true] "left").2 (Or.inr rfl)⟩

/-! ### BB84 (`BB84.ipynb`): sifting and the Z-basis encode/measure loop -/

/-- `sift_key(alice_bits, bob_bits, alice_bases, bob_bases)`: walk the four
zipped sequences; append the sentinel `0` where the two bases agree and
`1` where they differ (the bit values are read but unused, exactly as in
the source).  Bits are ints and bases are the characters X/Z, as in the
notebook. -/
def sift_key (alice_bits bob_bits : List ℕ) (alice_bases bob_bases : List Char) :
    List ℕ :=
  match alice_bases, bob_bases, alice_bits, bob_bits with
  | a_base :: au, b_base :: bu, _ :: xu, _ :: yu =>
      (if a_base = b_base then 0 else 1) :: sift_key xu yu au bu
  | _, _, _, _ => []

/-- C8.  For four equal-length input sequences, `sift_key` returns a list
of the same length whose entries are exactly the two sentinels 0 and 1,
with 0 at position i precisely when the bases agree at position i. -/
theorem sift_key_flags :
    ∀ (n : ℕ) (alice_bits bob_bits : List ℕ) (alice_bases bob_bases : List Char),
      alice_bits.length = n → bob_bits.length = n →
      alice_bases.length = n → bob_bases.length = n →
      (sift_key alice_bits bob_bits alice_bases bob_bases).length = n ∧
      (∀ v ∈ sift_key alice_bits bob_bits alice_bases bob_bases, v = 0 ∨ v = 1) ∧
      (∀ i, i < n →
        (sift_key alice_bits bob_bits alice_bases bob_bases).getD i 2 =
          if alice_bases.getD i 'Z' = bob_bases.getD i 'Z' then 0 else 1) := by
  intro n
  induction n with
  | zero =>
      intro ab bb abs bbs h1 h2 h3 h4
      rw [List.length_eq_zero] at h1 h2 h3 h4
      subst h1; subst h2; subst h3; subst h4
      exact ⟨rfl, fun v hv => absurd hv (List.not_mem_nil v),
        fun i hi => absurd hi (by omega)⟩
  | succ k ih =>
      intro ab bb abs bbs h1 h2 h3 h4
      cases ab with
      | nil => simp at h1
      | cons a au =>
          cases bb with
          | nil => simp at h2
          | cons b bu =>
              cases abs with
              | nil => simp at h3
              | cons c cu =>
                  cases bbs with
                  | nil => simp at h4
                  | cons d du =>
                      have hrec := ih au bu cu du (by simpa using h1)
                        (by simpa using h2) (by simpa using h3) (by simpa using h4)
                      refine ⟨?_, ?_, ?_⟩
                      · show (sift_key au bu cu du).length + 1 = k + 1
                        rw [hrec.1]
                      · intro v hv
                        rcases List.mem_cons.mp hv with h | h
                        · subst h
                          by_cases hcd : c = d
                          · rw [if_pos hcd]; exact Or.inl rfl
                          · rw [if_neg hcd]; exact Or.inr rfl
                        · exact hrec.2.1 v h
                      · intro i hi
                        cases i with
                        | zero => rfl
                        | succ j =>
                            show (sift_key au bu cu du).getD j 2 = _
                            rw [hrec.2.2 j (by omega)]
                            rfl

/-- Witness for C8 with one agreeing and one disagreeing position. -/
theorem sift_key_flags_witness :
    (([0, 1] : List ℕ).length = 2) ∧
      ((sift_key [0, 1] [1, 0] ['Z', 'Z'] ['Z', 'X']).length = 2 ∧
        (∀ v ∈ sift_key [0, 1] [1, 0] ['Z', 'Z'] ['Z', 'X'], v = 0 ∨ v = 1) ∧
        (∀ i, i < 2 →
          (sift_key [0, 1] [1, 0] ['Z', 'Z'] ['Z', 'X']).getD i 2 =
            if (['Z', 'Z'] : List Char).getD i 'Z' =
                (['Z', 'X'] : List Char).getD i 'Z' then 0 else 1)) :=
  ⟨by decide, sift_key_flags 2 [0, 1] [1, 0] ['Z', 'Z'] ['Z', 'X']
    (by decide) (by decide) (by decide) (by decide)⟩

/-- `encode_qubits(bits, bases)`: one single-qubit circuit per (bit, basis)
pair — H if the basis is X, then X if the bit is 1, then H again if the
basis is X. -/
def encode_qubits (bits : List ℕ) (bases : List Char) : List (List Gate) :=
  match bits, bases with
  | bit :: bu, basis :: cu =>
      ((if basis = 'X' then [Gate.h 0] else []) ++
        (if bit = 1 then [Gate.x 0] else []) ++
        (if basis = 'X' then [Gate.h 0] else [])) :: encode_qubits bu cu
  | _, _ => []

/-- `measure_qubits(qubits, bases)` up to the final computational-basis
measurement: for each circuit, append H when the measurement basis is X,
then measure qubit 0 (measurement is modelled by reading the state). -/
def measure_qubits (qubits : List (List Gate)) (bases : List Char) :
    List (List Gate) :=
  match qubits, bases with
  | qc :: qu, basis :: cu =>
      (qc ++ (if basis = 'X' then [Gate.h 0] else [])) :: measure_qubits qu cu
  | _, _ => []

/-- C9.  When a bit is encoded in the Z basis by `encode_qubits` and
measured in the Z basis by `measure_qubits`, the pre-measurement state is
exactly the computational-basis state of the original bit, so the
measurement deterministically returns it. -/
theorem bb84_z_basis_round_trip (b : ℕ) (hb : b = 0 ∨ b = 1) :
    ∀ L ∈ measure_qubits (encode_qubits [b] ['Z']) ['Z'],
      applyList L (basisState (fun _ : Fin 1 => false)) =
        basisState (fun _ : Fin 1 => decide (b = 1)) := by
  rcases hb with rfl | rfl
  · intro L hL
    have hL' : L = [] := by
      simpa [encode_qubits, measure_qubits] using hL
    subst hL'
    rfl
  · intro L hL
    have hL' : L = [Gate.x 0] := by
      simpa [encode_qubits, measure_qubits] using hL
    subst hL'
    show applyG (Gate.x 0) (basisState (fun _ : Fin 1 => false)) = _
    rw [applyG_x_basis]
    have hAB : setQ (fun _ : Fin 1 => false) 0
        (!(getQ (fun _ : Fin 1 => false) 0)) =
        (fun _ : Fin 1 => decide ((1 : ℕ) = 1)) := by
      funext i
      have hi : i.val = 0 := by omega
      show (if i.val = 0 then !(getQ (fun _ : Fin 1 => false) 0) else false) =
        decide ((1 : ℕ) = 1)
      rw [if_pos hi]
      rfl
    rw [hAB]

/-- Witness for C9 at the bit 1. -/
theorem bb84_z_basis_round_trip_witness :
    ((1 : ℕ) = 0 ∨ (1 : ℕ) = 1) ∧
      ∀ L ∈ measure_qubits (encode_qubits [1] ['Z']) ['Z'],
        applyList L (basisState (fun _ : Fin 1 => false)) =
          basisState (fun _ : Fin 1 => decide ((1 : ℕ) = 1)) :=
  ⟨Or.inr rfl, bb84_z_basis_round_trip 1 (Or.inr rfl)⟩

/-! ### The swap-test distance estimate (`QKNN.ipynb`) -/

/-- `distance_squared = 2 * (1 - prob_0)` from `estimate_distance`. -/
noncomputable def distance_squared (p : ℝ) : ℝ := 2 * (1 - p)

/-- `estimate_distance` as a function of the sampled reference-outcome
probability `p = prob_0`: `np.sqrt(max(0, distance_squared))`. -/
noncomputable def estimate_distance (p : ℝ) : ℝ :=
  Real.sqrt (max 0 (distance_squared p))

/-- C4.  The distance estimate equals √(max(0, 2(1-p))); it is 0 at p = 1,
√2 at p = 0, and monotonically non-increasing in p on [0, 1]. -/
theorem estimate_distance_spec :
    estimate_distance 1 = 0 ∧
    estimate_distance 0 = Real.sqrt 2 ∧
    (∀ p q : ℝ, 0 ≤ p → p ≤ q → q ≤ 1 →
      estimate_distance q ≤ estimate_distance p) ∧
    (∀ p : ℝ, estimate_distance p = Real.sqrt (max 0 (2 * (1 - p)))) := by
  refine ⟨?_, ?_, ?_, fun p => rfl⟩
  · unfold estimate_distance distance_squared
    norm_num
  · unfold estimate_distance distance_squared
    norm_num
  · intro p q h0 hpq h1
    unfold estimate_distance
    apply Real.sqrt_le_sqrt
    apply max_le_max le_rfl
    unfold distance_squared
    linarith

/-- Witness for C4's monotonicity at the endpoints 0 and 1. -/
theorem estimate_distance_spec_witness :
    ((0 : ℝ) ≤ 0 ∧ (0 : ℝ) ≤ 1 ∧ (1 : ℝ) ≤ 1) ∧
      estimate_distance 1 ≤ estimate_distance 0 :=
  ⟨⟨le_rfl, zero_le_one, le_rfl⟩,
    estimate_distance_spec.2.2.1 0 1 le_rfl zero_le_one le_rfl⟩
